import Mathlib

/-!
# Verification of match.js (src/match.js)

A shallow embedding of the pattern-matching library in `src/match.js`.

JavaScript values handled by the library are scalars (numbers, strings,
booleans) and nested arrays; numbers occurring in the test-suite and the
claims are integers, so numbers are modelled as `Int`.

The binding context (the object `j` threaded through every matcher) is
modelled as an association list in property-insertion order: a fresh key is
appended, an existing key is overwritten in place, which is exactly how a
JavaScript object records `j[str] = x` assignments.

Every matcher in the source is a closure `(x, j) => j | false` that may
MUTATE `j` before returning `false`; we therefore model a matcher invocation
as returning `Bool × Ctx` — the success flag together with the (possibly
mutated) context — rather than `Option Ctx`, so that bindings written inside
abandoned branches are preserved exactly as in the source.

The mutually recursive search loops of the source (`or`'s loop, `repeat`'s
element loop, `lst`'s `submatch` with its greedy/lazy/fixed-chunk loops) are
embedded as a single step function `run` over a call descriptor, structurally
recursive on a fuel argument; `run_defined` proves the fuel can always be
chosen large enough, i.e. the search terminates.
-/

/-- JavaScript values the library matches against: scalars and nested arrays.
Numbers are modelled as integers (all numbers in the source's tests are). -/
inductive JVal where
  | num (n : Int)
  | str (s : String)
  | bool (b : Bool)
  | arr (elems : List JVal)
deriving Repr

/-- The binding context `j`: a JavaScript object mapping labels to values,
in property-insertion order. -/
def Ctx := List (String × JVal)

instance : Repr Ctx := inferInstanceAs (Repr (List (String × JVal)))

/-- `j[str] = x` on a JavaScript object: overwrite an existing key in place,
append a fresh key. -/
def setKey : Ctx → String → JVal → Ctx
  | [], s, v => [(s, v)]
  | (k, w) :: rest, s, v =>
      if k = s then (k, v) :: rest else (k, w) :: setKey rest s v

/-- JavaScript `===` between a candidate and a captured literal (`is`):
structural equality on scalars; `false` on arrays, because `===` on objects
is reference equality and the candidate is never the very array object
captured inside the pattern. -/
def jsEq : JVal → JVal → Bool
  | .num a, .num b => a == b
  | .str a, .str b => a == b
  | .bool a, .bool b => a == b
  | _, _ => false

/-- Repetition flavours: `repeat` builds a plain repetition, `greedy`/`lazy`
re-tag the same matcher (`matchable(repeat(...), greedy)`). -/
inductive RepMode where
  | plain
  | greedy
  | lazy
deriving DecidableEq, Repr

/-- Compiled patterns: one constructor per matcher-producing function of the
source (`any`, `is`, `number`, `string`, `boolean`, `or`, `lst`, `name`,
`repeat`/`greedy`/`lazy` merged into `rep` with a `RepMode`).

`mn`/`mx` are the repetition bounds: `none` models JavaScript `false`
(bounds unset).  A `max` that was passed as `undefined` (min given, max
omitted) is also modelled as `none`: the source's check
`max !== false && x.length > max` is then `x.length > undefined`, which is
always `false`, so such a bound is vacuous exactly like an unset one. -/
inductive Pattern where
  | any
  | is (v : JVal)
  | number
  | string
  | boolean
  | or (ps : List Pattern)
  | lst (ps : List Pattern)
  | name (s : String) (p : Pattern)
  | rep (mode : RepMode) (p : Pattern) (mn mx : Option Nat)
deriving Repr

/-- The `.type` tag `matchable` attaches to every matcher.  `name` copies the
tag of the wrapped matcher (`p.type` — "naming something does not alter its
semantics"). -/
inductive PType where
  | anyT | isT | numberT | stringT | booleanT | orT | lstT
  | repeatT | greedyT | lazyT
deriving DecidableEq, Repr

/-- `.type` of a compiled pattern. -/
def ptype : Pattern → PType
  | .any => .anyT
  | .is _ => .isT
  | .number => .numberT
  | .string => .stringT
  | .boolean => .booleanT
  | .or _ => .orT
  | .lst _ => .lstT
  | .name _ p => ptype p
  | .rep .plain _ _ _ => .repeatT
  | .rep .greedy _ _ _ => .greedyT
  | .rep .lazy _ _ _ => .lazyT

/-- The chunking predicate of `lst`:
`e => e && (e.type === greedy || e.type === lazy)`. -/
def isRepPat (p : Pattern) : Bool :=
  ptype p == .greedyT || ptype p == .lazyT

/-- A chunk of a compiled sequence: either a maximal run of non-repetition
matchers (a JavaScript array of matchers) or a single greedy/lazy matcher. -/
inductive Chunk where
  | fixed (ps : List Pattern)
  | repc (p : Pattern)
deriving Repr

/-- The loop body of `chunkify`: `fx` is the pending fixed run, accumulated
in reverse (the source `push`es and we cons). -/
def chunkifyGo : List Pattern → List Pattern → List Chunk
  | [], fx => if fx.isEmpty then [] else [.fixed fx.reverse]
  | e :: rest, fx =>
      if isRepPat e then
        (if fx.isEmpty then ([] : List Chunk) else [.fixed fx.reverse])
          ++ .repc e :: chunkifyGo rest []
      else
        chunkifyGo rest (e :: fx)

/-- `chunkify(ps, e => e && (e.type===greedy || e.type===lazy))` from `lst`. -/
def chunkify (ps : List Pattern) : List Chunk :=
  chunkifyGo ps []

/-- JavaScript `.length` of a chunk value: for a fixed chunk (an array) the
number of matchers; for a repetition chunk (a `matchable` closure
`function(x, j)`) the function arity, which is 2. -/
def chunkLen : Chunk → Nat
  | .fixed ps => ps.length
  | .repc _ => 2

/-- Whether a chunk value's `.type` is `greedy` or `lazy` (for a fixed chunk,
a JavaScript array, `.type` is `undefined`). -/
def chunkIsRep : Chunk → Bool
  | .fixed _ => false
  | .repc p => isRepPat p

/-- The `fixlength` computation of the greedy branch of `submatch`, verbatim:

    let fixlength = 0;
    for(let c = ci+1 ; c < chunks.length ; c++) {
      if(chunks[ci].type !== greedy && chunks[ci].type !== lazy && chunks[ci+1].length) {
        fixlength += chunks[ci+1].length;
      }
    }

The condition reads the fixed indices `ci` and `ci+1` on every iteration, so
the loop adds `chunks[ci+1].length` once per remaining chunk whenever the
condition holds — and the condition never holds in the greedy branch, since
`chunks[ci]` is the greedy chunk itself (see `fixlengthCalc_greedy`). -/
def fixlengthCalc (cur : Chunk) (rest : List Chunk) : Nat :=
  match rest.head? with
  | none => 0
  | some nxt =>
      if chunkIsRep cur = false ∧ chunkLen nxt ≠ 0 then
        rest.length * chunkLen nxt
      else 0

/-- `min !== false && x.length < min`. -/
def minViolated (mn : Option Nat) (len : Nat) : Bool :=
  match mn with
  | none => false
  | some m => len < m

/-- `max !== false && x.length > max`.  (`none` covers both `false` and
`undefined`: `x.length > undefined` is always `false`.) -/
def maxViolated (mx : Option Nat) (len : Nat) : Bool :=
  match mx with
  | none => false
  | some m => m < len

/-- Call descriptors for the mutually recursive matchers and loops of the
source; each carries the binding context `j` at call time.

* `pat p x j` — invoking the compiled matcher `p(x, j)`;
* `orLoop` — the alternative loop inside `or`;
* `repLoop` — the element loop inside `repeat`'s matcher;
* `fixLoop` — the element loop of a fixed chunk inside `submatch`
  (`elems` is `x.slice(xi)`, already offset);
* `submatch chunks l xi j` — `submatch(ci, xi)` of `lst`, with `chunks` the
  chunk list from index `ci` on;
* `greedyLoop` — the descending `replength` loop of a greedy chunk;
* `lazyLoop` — the ascending `replength` loop of a lazy chunk
  (`rmax` is its constant bound `fixlength = x.length`). -/
inductive Call where
  | pat (p : Pattern) (x : JVal) (j : Ctx)
  | orLoop (ps : List Pattern) (x : JVal) (j : Ctx)
  | repLoop (p : Pattern) (elems : List JVal) (j : Ctx)
  | fixLoop (ps : List Pattern) (elems : List JVal) (j : Ctx)
  | submatch (chunks : List Chunk) (l : List JVal) (xi : Nat) (j : Ctx)
  | greedyLoop (cp : Pattern) (rest : List Chunk) (l : List JVal)
      (xi : Nat) (r : Nat) (j : Ctx)
  | lazyLoop (cp : Pattern) (rest : List Chunk) (l : List JVal)
      (xi : Nat) (r : Nat) (rmax : Nat) (j : Ctx)

/-- One fuel-indexed interpreter for all matchers and search loops of
`src/match.js`; `none` means the fuel ran out (`run_defined` shows enough
fuel always exists).  Every clause is a direct transcription of the
corresponding source lines; see the `Call` constructor docs. -/
def run : Nat → Call → Option (Bool × Ctx)
  | 0, _ => none
  -- any(): function(x, j) { return j; }
  | _ + 1, .pat .any _ j => some (true, j)
  -- is(object): if(x === object) return j; return false;
  | _ + 1, .pat (.is v) x j => some (jsEq x v, j)
  -- number(): typeof(x) === 'number' ? j : false
  | _ + 1, .pat .number x j =>
      some ((match x with | .num _ => true | _ => false), j)
  | _ + 1, .pat .string x j =>
      some ((match x with | .str _ => true | _ => false), j)
  | _ + 1, .pat .boolean x j =>
      some ((match x with | .bool _ => true | _ => false), j)
  -- or(...args)
  | n + 1, .pat (.or ps) x j => run n (.orLoop ps x j)
  -- name(str, p): if(p(x, j)) { j[str] = x; return j; } else return false;
  | n + 1, .pat (.name s p) x j =>
      match run n (.pat p x j) with
      | none => none
      | some (true, j1) => some (true, setKey j1 s x)
      | some (false, j1) => some (false, j1)
  -- repeat(p, min, max)'s matcher (also the body of greedy/lazy matchers)
  | n + 1, .pat (.rep _ p mn mx) x j =>
      match x with
      | .arr l =>
          if minViolated mn l.length then some (false, j)
          else if maxViolated mx l.length then some (false, j)
          else run n (.repLoop p l j)
      | _ => some (false, j)
  -- lst(...ps): if(Array.isArray(x)) return predicate(x, j); return false;
  | n + 1, .pat (.lst ps) x j =>
      match x with
      | .arr l => run n (.submatch (chunkify ps) l 0 j)
      | _ => some (false, j)
  -- or's loop: if(args[i](x, j)) return j;  (j is mutated in place)
  | _ + 1, .orLoop [] _ j => some (false, j)
  | n + 1, .orLoop (p :: ps) x j =>
      match run n (.pat p x j) with
      | none => none
      | some (true, j1) => some (true, j1)
      | some (false, j1) => run n (.orLoop ps x j1)
  -- repeat's element loop: if(!p(x[i], j)) return false; ... return j;
  | _ + 1, .repLoop _ [] j => some (true, j)
  | n + 1, .repLoop p (e :: es) j =>
      match run n (.pat p e j) with
      | none => none
      | some (false, j1) => some (false, j1)
      | some (true, j1) => run n (.repLoop p es j1)
  -- fixed chunk element loop: if(!chunk[c](x[c+xi], j)) return false;
  | _ + 1, .fixLoop [] _ j => some (true, j)
  -- next clause is unreachable from `submatch`, whose length guard
  -- ensures at least `ps.length` elements remain
  | _ + 1, .fixLoop (_ :: _) [] j => some (false, j)
  | n + 1, .fixLoop (p :: ps) (e :: es) j =>
      match run n (.pat p e j) with
      | none => none
      | some (false, j1) => some (false, j1)
      | some (true, j1) => run n (.fixLoop ps es j1)
  -- submatch termination: success iff chunks and data are both exhausted
  | _ + 1, .submatch [] l xi j => some (decide (l.length ≤ xi), j)
  | n + 1, .submatch (.fixed qs :: rest) l xi j =>
      -- if(chunklen > datalen) return false;  (datalen = x.length - xi in ℤ)
      if l.length < xi + qs.length then some (false, j)
      else
        match run n (.fixLoop qs (l.drop xi) j) with
        | none => none
        | some (false, j1) => some (false, j1)
        | some (true, j1) => run n (.submatch rest l (xi + qs.length) j1)
  | n + 1, .submatch (.repc cp :: rest) l xi j =>
      if ptype cp = .greedyT then
        -- for(let replength = x.length - xi - fixlength ; replength >= 0 ; replength--)
        -- (integer arithmetic: a negative start runs zero iterations)
        let fixlen := fixlengthCalc (.repc cp) rest
        if l.length < xi + fixlen then some (false, j)
        else run n (.greedyLoop cp rest l xi (l.length - xi - fixlen) j)
      else if ptype cp = .lazyT then
        -- let fixlength = x.length; for(replength = 0 ; replength <= fixlength ; replength++)
        run n (.lazyLoop cp rest l xi 0 l.length j)
      else
        -- unreachable: chunkify only emits repc for greedy/lazy-typed
        -- matchers; the source would crash on such a chunk
        some (false, j)
  -- greedy loop body: if(chunk(x.slice(xi, xi+replength), j) && submatch(ci+1, xi+replength)) return j;
  | n + 1, .greedyLoop cp rest l xi r j =>
      match run n (.pat cp (.arr ((l.drop xi).take r)) j) with
      | none => none
      | some (sliceOk, j1) =>
          if sliceOk then
            match run n (.submatch rest l (xi + r) j1) with
            | none => none
            | some (true, j2) => some (true, j2)
            | some (false, j2) =>
                if r = 0 then some (false, j2)
                else run n (.greedyLoop cp rest l xi (r - 1) j2)
          else
            if r = 0 then some (false, j1)
            else run n (.greedyLoop cp rest l xi (r - 1) j1)
  -- lazy loop body (condition `replength <= fixlength` checked first)
  | n + 1, .lazyLoop cp rest l xi r rmax j =>
      if rmax < r then some (false, j)
      else
        match run n (.pat cp (.arr ((l.drop xi).take r)) j) with
        | none => none
        | some (sliceOk, j1) =>
            if sliceOk then
              match run n (.submatch rest l (xi + r) j1) with
              | none => none
              | some (true, j2) => some (true, j2)
              | some (false, j2) => run n (.lazyLoop cp rest l xi (r + 1) rmax j2)
            else run n (.lazyLoop cp rest l xi (r + 1) rmax j1)

/-- `match(p)(x)`: the compiled predicate applied at top level, with a fresh
empty binding context (`matchable` sets `j = {}`). -/
def matchRun (fuel : Nat) (p : Pattern) (x : JVal) : Option (Bool × Ctx) :=
  run fuel (.pat p x [])

-- Sanity checks against the source's own test-suite ("testing" block).
example : matchRun 20 (.is (.str "x")) (.str "x") = some (true, []) := rfl
example : matchRun 20 (.is (.str "x")) (.str "y") = some (false, []) := rfl
example : matchRun 20 (.name "abba" (.is (.str "x"))) (.str "x")
    = some (true, [("abba", .str "x")]) := rfl
example : matchRun 20 (.rep .plain (.is (.str "x")) (some 1) (some 2))
    (.arr [.str "x", .str "x", .str "x"]) = some (false, []) := rfl
-- check(match([greedy(), 1, 2]) ([1, 2, 3]), false);
example : matchRun 30
    (.lst [.rep .greedy .any none none, .is (.num 1), .is (.num 2)])
    (.arr [.num 1, .num 2, .num 3]) = some (false, []) := rfl
-- check(match([greedy(), 1, 2]) ([3, 1, 2]), {});
example : matchRun 30
    (.lst [.rep .greedy .any none none, .is (.num 1), .is (.num 2)])
    (.arr [.num 3, .num 1, .num 2]) = some (true, []) := rfl
-- check(match([1, name('A', greedy()), 2]) ([1,3,4,2]), {A:[3,4]});
example : matchRun 30
    (.lst [.is (.num 1), .name "A" (.rep .greedy .any none none), .is (.num 2)])
    (.arr [.num 1, .num 3, .num 4, .num 2])
    = some (true, [("A", .arr [.num 3, .num 4])]) := rfl

/-- Raw input to the compiler `match(p)`: a previously compiled pattern (a
function), the bare `any` constructor (`p === any`), a scalar literal, an
array of raw values, or the error string that `repeat` returns for
one-sided bounds (also just a value to `match`). -/
inductive Raw where
  | pat (p : Pattern)
  | anyM
  | num (n : Int)
  | str (s : String)
  | bool (b : Bool)
  | arr (rs : List Raw)

mutual

/-- The compiler `match(p)` (source lines 97-102): the bare `any`
constructor becomes `any()`; a function (compiled pattern) is returned
as-is; an array becomes `lst` of its compiled elements (`lst` maps `match`
over its arguments); anything else becomes `is(p)`. -/
def compile : Raw → Pattern
  | .pat p => p
  | .anyM => .any
  | .num n => .is (.num n)
  | .str s => .is (.str s)
  | .bool b => .is (.bool b)
  | .arr rs => .lst (compileList rs)

/-- `ps.map(match)` inside `lst`. -/
def compileList : List Raw → List Pattern
  | [] => []
  | r :: rs => compile r :: compileList rs

end

/-- `match` as a `Raw → Raw` map: the source's `match` always returns a
value (a matcher function, i.e. a `Pattern`), usable for stating that
compilation returns certain inputs unchanged. -/
def compileRaw (r : Raw) : Raw :=
  .pat (compile r)

/-- The `repeat(p, min, max)` constructor (source lines 242-252), covering
its bounds handling.  Arguments are `Option`s because the source tests
`typeof(...) === 'undefined'`:

* both bounds omitted → both set to `false` (no bounds);
* `min` omitted but `max` given → `console.error(...)` and
  `return 'repeat pattern error min/max'` — the error string, not a matcher;
* `min` given, `max` omitted → **no error**: `max` stays `undefined`, and
  the matcher's test `max !== false && x.length > max` is then
  `x.length > undefined`, which is always `false` — a vacuous upper bound,
  modelled as `none` like an unset one.

A missing sub-pattern defaults to `any()` before compilation. -/
def repeatCons (mode : RepMode) (p? : Option Raw) (mn? mx? : Option Nat) : Raw :=
  let p := match p? with
    | none => Pattern.any
    | some r => compile r
  match mn?, mx? with
  | none, none => .pat (.rep mode p none none)
  | none, some _ => .str "repeat pattern error min/max"
  | some m, none => .pat (.rep mode p (some m) none)
  | some m, some mx => .pat (.rep mode p (some m) (some mx))

section Select

variable {α : Type}

/-- An entry of the flat `clauses` array passed to `select`: at even
positions a compiled pattern, at odd positions a handler taking the binding
context of the successful match. -/
inductive ClauseItem (α : Type) where
  | cpat (p : Pattern)
  | cfun (f : Ctx → α)

/-- The pair loop of `select`: `m = clauses[i](x); if(m) return clauses[i+1](m);`
then `return fallback ? fallback(x) : false` (no match modelled as `none`).
Each matcher is invoked as `match(x)`, i.e. on a fresh empty context.
A non-alternating list is not a use the source supports (it would invoke a
non-matcher value); that dead branch yields `none`. -/
def selectLoop (fuel : Nat) (x : JVal) :
    List (ClauseItem α) → Option (JVal → α) → Option α
  | .cpat p :: .cfun f :: rest, fb =>
      match run fuel (.pat p x []) with
      | some (true, m) => some (f m)
      | _ => selectLoop fuel x rest fb
  | [], fb => fb.map (fun f => f x)
  | _, _ => none

/-- `select(x, clauses, fallback)` (source lines 435-444): an odd-length
clause list throws `Error('number of clauses is not even')` before any
matching is attempted; otherwise first-match-wins with optional fallback. -/
def select (fuel : Nat) (x : JVal) (clauses : List (ClauseItem α))
    (fallback : Option (JVal → α)) : Except String (Option α) :=
  if clauses.length % 2 ≠ 0 then .error "number of clauses is not even"
  else .ok (selectLoop fuel x clauses fallback)

/-- Modelled from the spec: the dispatch helper of spec §4.5, stated over an
ordered list of (pattern, handler) pairs — "evaluates patterns in order,
invokes the handler of the first one that matches with the resulting binding
context, and otherwise invokes an optional fallback handler with the raw
candidate, or reports no match". -/
def specSelect (fuel : Nat) (x : JVal) :
    List (Pattern × (Ctx → α)) → Option (JVal → α) → Option α
  | [], fb => fb.map (fun f => f x)
  | (p, f) :: rest, fb =>
      match run fuel (.pat p x []) with
      | some (true, m) => some (f m)
      | _ => specSelect fuel x rest fb

/-- Flattening a pair list into the alternating clause array the source
expects. -/
def flattenPairs : List (Pattern × (Ctx → α)) → List (ClauseItem α)
  | [] => []
  | (p, f) :: rest => .cpat p :: .cfun f :: flattenPairs rest

end Select

/-! ## Concrete-evaluation claims -/

/-- C1: the shared, eagerly mutated binding context retains bindings written
inside abandoned branches of the backtracking search.  Witnessing pattern:
`or([name('Z', any()), 1], any())` applied to `[5, 2]`.  The first
alternative (a sequence) writes `Z = 5` via its `name` sub-matcher, then
fails on the literal `1`; the second alternative `any()` succeeds without
writing anything — yet the returned context of the overall (successful)
match contains `Z = 5`, a label written only inside the abandoned branch. -/
theorem or_writes_survive_abandoned_branch :
    matchRun 20
        (.or [.lst [.name "Z" .any, .is (.num 1)], .any])
        (.arr [.num 5, .num 2])
      = some (true, [("Z", .num 5)])
    ∧ matchRun 20
        (.lst [.name "Z" .any, .is (.num 1)])
        (.arr [.num 5, .num 2])
      = some (false, [("Z", .num 5)])
    ∧ matchRun 20 .any (.arr [.num 5, .num 2]) = some (true, []) := by
  refine ⟨rfl, rfl, rfl⟩

/-- C3: greedy/lazy divergence for
`[name('A', repeat_X()), name('B', greedy(is(2)))]`.
Over `[1,2]` the lazy variant yields `A=[1], B=[2]` while the greedy variant
yields `A=[1,2], B=[]`; over `[1,2,3]` both yield `A=[1,2,3], B=[]`. -/
theorem greedy_lazy_divergence :
    matchRun 40
        (.lst [.name "A" (.rep .greedy .any none none),
               .name "B" (.rep .greedy (.is (.num 2)) none none)])
        (.arr [.num 1, .num 2])
      = some (true, [("A", .arr [.num 1, .num 2]), ("B", .arr [])])
    ∧ matchRun 40
        (.lst [.name "A" (.rep .lazy .any none none),
               .name "B" (.rep .greedy (.is (.num 2)) none none)])
        (.arr [.num 1, .num 2])
      = some (true, [("A", .arr [.num 1]), ("B", .arr [.num 2])])
    ∧ matchRun 40
        (.lst [.name "A" (.rep .greedy .any none none),
               .name "B" (.rep .greedy (.is (.num 2)) none none)])
        (.arr [.num 1, .num 2, .num 3])
      = some (true, [("A", .arr [.num 1, .num 2, .num 3]), ("B", .arr [])])
    ∧ matchRun 40
        (.lst [.name "A" (.rep .lazy .any none none),
               .name "B" (.rep .greedy (.is (.num 2)) none none)])
        (.arr [.num 1, .num 2, .num 3])
      = some (true, [("A", .arr [.num 1, .num 2, .num 3]), ("B", .arr [])]) := by
  refine ⟨rfl, rfl, rfl, rfl⟩

/-- C6: evaluating `repeat`'s bounds handling at the two one-sided cases.
Only `min` omitted with `max` given is signalled (by the error-string
return); `min` given with `max` omitted silently produces a working
min-only matcher, contradicting the claim (and the code's own error
message "repeat pattern must contain either both min and max or neither"),
as this pattern then accepts arrays of unbounded length. -/
theorem repeat_one_sided_bounds_eval :
    repeatCons .plain none none (some 1) = .str "repeat pattern error min/max"
    ∧ repeatCons .plain none (some 1) none = .pat (.rep .plain .any (some 1) none)
    ∧ matchRun 20 (.rep .plain .any (some 1) none)
        (.arr [.num 1, .num 2, .num 3, .num 4]) = some (true, []) := by
  refine ⟨rfl, rfl, rfl⟩

/-- C7 counterexample: the claim quantifies over "any value produced by the
compiler or by the pattern constructors literal/wildcard/number/string/
boolean/alternation/sequence/repeat/named" — but `repeat` with `min`
omitted and `max` given produces the string `'repeat pattern error min/max'`
(not a matcher), and compiling that value yields a fresh literal-equality
matcher `is('repeat pattern error min/max')`, not the value unchanged. -/
theorem compile_not_idempotent_on_repeat_error :
    compileRaw (repeatCons .plain none none (some 1))
      ≠ repeatCons .plain none none (some 1) := by
  intro h
  exact Raw.noConfusion h

/-- C7 (amended): compilation is idempotent on every actual compiled
Pattern, i.e. on every matcher function produced by the compiler or the
pattern constructors — which excludes only `repeat`'s error-string return
for one-sided bounds.  `match` returns any function input unchanged. -/
theorem compile_idempotent_on_patterns :
    ∀ p : Pattern, compileRaw (.pat p) = .pat p := by
  intro p
  rfl

/-! ## Fuel machinery

One-step unfolding equations for `run` (all definitional), then fuel
monotonicity: adding fuel never changes an already-delivered result. -/

theorem run_zero (c : Call) : run 0 c = none := rfl

theorem runEq_or (n : Nat) (ps : List Pattern) (x : JVal) (j : Ctx) :
    run (n + 1) (.pat (.or ps) x j) = run n (.orLoop ps x j) := rfl

theorem runEq_name (n : Nat) (s : String) (p : Pattern) (x : JVal) (j : Ctx) :
    run (n + 1) (.pat (.name s p) x j)
      = (match run n (.pat p x j) with
         | none => none
         | some (true, j1) => some (true, setKey j1 s x)
         | some (false, j1) => some (false, j1)) := rfl

theorem runEq_rep_arr (n : Nat) (mode : RepMode) (p : Pattern)
    (mn mx : Option Nat) (l : List JVal) (j : Ctx) :
    run (n + 1) (.pat (.rep mode p mn mx) (.arr l) j)
      = (if minViolated mn l.length then some (false, j)
         else if maxViolated mx l.length then some (false, j)
         else run n (.repLoop p l j)) := rfl

theorem runEq_lst_arr (n : Nat) (ps : List Pattern) (l : List JVal) (j : Ctx) :
    run (n + 1) (.pat (.lst ps) (.arr l) j)
      = run n (.submatch (chunkify ps) l 0 j) := rfl

theorem runEq_orLoop_cons (n : Nat) (p : Pattern) (ps : List Pattern)
    (x : JVal) (j : Ctx) :
    run (n + 1) (.orLoop (p :: ps) x j)
      = (match run n (.pat p x j) with
         | none => none
         | some (true, j1) => some (true, j1)
         | some (false, j1) => run n (.orLoop ps x j1)) := rfl

theorem runEq_repLoop_cons (n : Nat) (p : Pattern) (e : JVal)
    (es : List JVal) (j : Ctx) :
    run (n + 1) (.repLoop p (e :: es) j)
      = (match run n (.pat p e j) with
         | none => none
         | some (false, j1) => some (false, j1)
         | some (true, j1) => run n (.repLoop p es j1)) := rfl

theorem runEq_fixLoop_cons (n : Nat) (p : Pattern) (ps : List Pattern)
    (e : JVal) (es : List JVal) (j : Ctx) :
    run (n + 1) (.fixLoop (p :: ps) (e :: es) j)
      = (match run n (.pat p e j) with
         | none => none
         | some (false, j1) => some (false, j1)
         | some (true, j1) => run n (.fixLoop ps es j1)) := rfl

theorem runEq_submatch_nil (n : Nat) (l : List JVal) (xi : Nat) (j : Ctx) :
    run (n + 1) (.submatch [] l xi j) = some (decide (l.length ≤ xi), j) := rfl

theorem runEq_submatch_fixed (n : Nat) (qs : List Pattern) (rest : List Chunk)
    (l : List JVal) (xi : Nat) (j : Ctx) :
    run (n + 1) (.submatch (.fixed qs :: rest) l xi j)
      = (if l.length < xi + qs.length then some (false, j)
         else
           match run n (.fixLoop qs (l.drop xi) j) with
           | none => none
           | some (false, j1) => some (false, j1)
           | some (true, j1) => run n (.submatch rest l (xi + qs.length) j1)) := rfl

theorem runEq_submatch_repc (n : Nat) (cp : Pattern) (rest : List Chunk)
    (l : List JVal) (xi : Nat) (j : Ctx) :
    run (n + 1) (.submatch (.repc cp :: rest) l xi j)
      = (if ptype cp = .greedyT then
           if l.length < xi + fixlengthCalc (.repc cp) rest then some (false, j)
           else run n
             (.greedyLoop cp rest l xi (l.length - xi - fixlengthCalc (.repc cp) rest) j)
         else if ptype cp = .lazyT then
           run n (.lazyLoop cp rest l xi 0 l.length j)
         else some (false, j)) := rfl

theorem runEq_greedyLoop (n : Nat) (cp : Pattern) (rest : List Chunk)
    (l : List JVal) (xi r : Nat) (j : Ctx) :
    run (n + 1) (.greedyLoop cp rest l xi r j)
      = (match run n (.pat cp (.arr ((l.drop xi).take r)) j) with
         | none => none
         | some (sliceOk, j1) =>
             if sliceOk then
               match run n (.submatch rest l (xi + r) j1) with
               | none => none
               | some (true, j2) => some (true, j2)
               | some (false, j2) =>
                   if r = 0 then some (false, j2)
                   else run n (.greedyLoop cp rest l xi (r - 1) j2)
             else
               if r = 0 then some (false, j1)
               else run n (.greedyLoop cp rest l xi (r - 1) j1)) := rfl

theorem runEq_lazyLoop (n : Nat) (cp : Pattern) (rest : List Chunk)
    (l : List JVal) (xi r rmax : Nat) (j : Ctx) :
    run (n + 1) (.lazyLoop cp rest l xi r rmax j)
      = (if rmax < r then some (false, j)
         else
           match run n (.pat cp (.arr ((l.drop xi).take r)) j) with
           | none => none
           | some (sliceOk, j1) =>
               if sliceOk then
                 match run n (.submatch rest l (xi + r) j1) with
                 | none => none
                 | some (true, j2) => some (true, j2)
                 | some (false, j2) => run n (.lazyLoop cp rest l xi (r + 1) rmax j2)
               else run n (.lazyLoop cp rest l xi (r + 1) rmax j1)) := rfl

/-- Adding one unit of fuel never changes an already-delivered result. -/
theorem run_mono : ∀ {n : Nat} {c : Call} {res : Bool × Ctx},
    run n c = some res → run (n + 1) c = some res := by
  intro n
  induction n with
  | zero => intro c res h; exact absurd h (by simp [run])
  | succ n ih =>
    intro c res h
    cases c with
    | pat p x j =>
      cases p with
      | any => exact h
      | is v => exact h
      | number => exact h
      | string => exact h
      | boolean => exact h
      | or ps => exact ih h
      | name s p =>
        rw [runEq_name] at h ⊢
        cases hr : run n (.pat p x j) with
        | none => rw [hr] at h; exact Option.noConfusion h
        | some br =>
          obtain ⟨b, j1⟩ := br
          rw [hr] at h
          rw [ih hr]
          cases b
          · exact h
          · exact h
      | rep mode p mn mx =>
        cases x with
        | arr l =>
          rw [runEq_rep_arr] at h ⊢
          split_ifs at h ⊢
          · exact h
          · exact h
          · exact ih h
        | num k => exact h
        | str s => exact h
        | bool b => exact h
      | lst ps =>
        cases x with
        | arr l => exact ih h
        | num k => exact h
        | str s => exact h
        | bool b => exact h
    | orLoop ps x j =>
      cases ps with
      | nil => exact h
      | cons p ps =>
        rw [runEq_orLoop_cons] at h ⊢
        cases hr : run n (.pat p x j) with
        | none => rw [hr] at h; exact Option.noConfusion h
        | some br =>
          obtain ⟨b, j1⟩ := br
          rw [hr] at h
          rw [ih hr]
          cases b
          · exact ih h
          · exact h
    | repLoop p es j =>
      cases es with
      | nil => exact h
      | cons e es =>
        rw [runEq_repLoop_cons] at h ⊢
        cases hr : run n (.pat p e j) with
        | none => rw [hr] at h; exact Option.noConfusion h
        | some br =>
          obtain ⟨b, j1⟩ := br
          rw [hr] at h
          rw [ih hr]
          cases b
          · exact h
          · exact ih h
    | fixLoop ps es j =>
      cases ps with
      | nil => exact h
      | cons p ps =>
        cases es with
        | nil => exact h
        | cons e es =>
          rw [runEq_fixLoop_cons] at h ⊢
          cases hr : run n (.pat p e j) with
          | none => rw [hr] at h; exact Option.noConfusion h
          | some br =>
            obtain ⟨b, j1⟩ := br
            rw [hr] at h
            rw [ih hr]
            cases b
            · exact h
            · exact ih h
    | submatch chunks l xi j =>
      cases chunks with
      | nil => exact h
      | cons chunk rest =>
        cases chunk with
        | fixed qs =>
          rw [runEq_submatch_fixed] at h ⊢
          split_ifs at h ⊢
          · exact h
          · cases hr : run n (.fixLoop qs (l.drop xi) j) with
            | none => rw [hr] at h; exact Option.noConfusion h
            | some br =>
              obtain ⟨b, j1⟩ := br
              rw [hr] at h
              rw [ih hr]
              cases b
              · exact h
              · exact ih h
        | repc cp =>
          rw [runEq_submatch_repc] at h ⊢
          split_ifs at h ⊢
          · exact h
          · exact ih h
          · exact ih h
          · exact h
    | greedyLoop cp rest l xi r j =>
      rw [runEq_greedyLoop] at h ⊢
      cases hr : run n (.pat cp (.arr ((l.drop xi).take r)) j) with
      | none => rw [hr] at h; exact Option.noConfusion h
      | some br =>
        obtain ⟨b, j1⟩ := br
        rw [hr] at h
        rw [ih hr]
        cases b
        · have h' : (if r = 0 then some (false, j1)
              else run n (.greedyLoop cp rest l xi (r - 1) j1)) = some res := h
          show (if r = 0 then some (false, j1)
              else run (n + 1) (.greedyLoop cp rest l xi (r - 1) j1)) = some res
          by_cases hr0 : r = 0
          · rw [if_pos hr0] at h' ⊢; exact h'
          · rw [if_neg hr0] at h' ⊢; exact ih h'
        · have h' : (match run n (.submatch rest l (xi + r) j1) with
              | none => none
              | some (true, j2) => some (true, j2)
              | some (false, j2) =>
                  if r = 0 then some (false, j2)
                  else run n (.greedyLoop cp rest l xi (r - 1) j2)) = some res := h
          show (match run (n + 1) (.submatch rest l (xi + r) j1) with
              | none => none
              | some (true, j2) => some (true, j2)
              | some (false, j2) =>
                  if r = 0 then some (false, j2)
                  else run (n + 1) (.greedyLoop cp rest l xi (r - 1) j2)) = some res
          cases hr2 : run n (.submatch rest l (xi + r) j1) with
          | none => rw [hr2] at h'; exact Option.noConfusion h'
          | some br2 =>
            obtain ⟨b2, j2⟩ := br2
            rw [hr2] at h'
            rw [ih hr2]
            cases b2
            · have h2 : (if r = 0 then some (false, j2)
                  else run n (.greedyLoop cp rest l xi (r - 1) j2)) = some res := h'
              show (if r = 0 then some (false, j2)
                  else run (n + 1) (.greedyLoop cp rest l xi (r - 1) j2)) = some res
              by_cases hr0 : r = 0
              · rw [if_pos hr0] at h2 ⊢; exact h2
              · rw [if_neg hr0] at h2 ⊢; exact ih h2
            · exact h'
    | lazyLoop cp rest l xi r rmax j =>
      rw [runEq_lazyLoop] at h ⊢
      split_ifs at h ⊢
      · exact h
      · cases hr : run n (.pat cp (.arr ((l.drop xi).take r)) j) with
        | none => rw [hr] at h; exact Option.noConfusion h
        | some br =>
          obtain ⟨b, j1⟩ := br
          rw [hr] at h
          rw [ih hr]
          cases b
          · exact ih h
          · have h' : (match run n (.submatch rest l (xi + r) j1) with
                | none => none
                | some (true, j2) => some (true, j2)
                | some (false, j2) =>
                    run n (.lazyLoop cp rest l xi (r + 1) rmax j2)) = some res := h
            show (match run (n + 1) (.submatch rest l (xi + r) j1) with
                | none => none
                | some (true, j2) => some (true, j2)
                | some (false, j2) =>
                    run (n + 1) (.lazyLoop cp rest l xi (r + 1) rmax j2)) = some res
            cases hr2 : run n (.submatch rest l (xi + r) j1) with
            | none => rw [hr2] at h'; exact Option.noConfusion h'
            | some br2 =>
              obtain ⟨b2, j2⟩ := br2
              rw [hr2] at h'
              rw [ih hr2]
              cases b2
              · exact ih h'
              · exact h'

/-- Adding any amount of fuel never changes an already-delivered result. -/
theorem run_mono_le {n m : Nat} {c : Call} {res : Bool × Ctx}
    (hnm : n ≤ m) (h : run n c = some res) : run m c = some res := by
  induction hnm with
  | refl => exact h
  | step _ ih => exact run_mono ih

/-- Replace the binding context a call was issued with. -/
def setCtx : Call → Ctx → Call
  | .pat p x _, j => .pat p x j
  | .orLoop ps x _, j => .orLoop ps x j
  | .repLoop p es _, j => .repLoop p es j
  | .fixLoop ps es _, j => .fixLoop ps es j
  | .submatch chunks l xi _, j => .submatch chunks l xi j
  | .greedyLoop cp rest l xi r _, j => .greedyLoop cp rest l xi r j
  | .lazyLoop cp rest l xi r rmax _, j => .lazyLoop cp rest l xi r rmax j

/-- No matcher of the source ever reads the binding context — matchers only
write to it — so success or failure of any call is independent of the
context it starts from (only the final context differs). -/
theorem run_ctx : ∀ {n : Nat} {c : Call} {b : Bool} {j2 : Ctx},
    run n c = some (b, j2) → ∀ j' : Ctx, ∃ j3, run n (setCtx c j') = some (b, j3) := by
  intro n
  induction n with
  | zero => intro c b j2 h; exact absurd h (by simp [run])
  | succ n ih =>
    intro c b j2 h j'
    have ihp : ∀ {p : Pattern} {x : JVal} {j : Ctx} {b : Bool} {j2 : Ctx} (j4 : Ctx),
        run n (.pat p x j) = some (b, j2) → ∃ j3, run n (.pat p x j4) = some (b, j3) :=
      fun j4 h => ih h j4
    have ihor : ∀ {ps : List Pattern} {x : JVal} {j : Ctx} {b : Bool} {j2 : Ctx} (j4 : Ctx),
        run n (.orLoop ps x j) = some (b, j2) → ∃ j3, run n (.orLoop ps x j4) = some (b, j3) :=
      fun j4 h => ih h j4
    have ihrep : ∀ {p : Pattern} {es : List JVal} {j : Ctx} {b : Bool} {j2 : Ctx} (j4 : Ctx),
        run n (.repLoop p es j) = some (b, j2) → ∃ j3, run n (.repLoop p es j4) = some (b, j3) :=
      fun j4 h => ih h j4
    have ihfix : ∀ {ps : List Pattern} {es : List JVal} {j : Ctx} {b : Bool} {j2 : Ctx} (j4 : Ctx),
        run n (.fixLoop ps es j) = some (b, j2) → ∃ j3, run n (.fixLoop ps es j4) = some (b, j3) :=
      fun j4 h => ih h j4
    have ihsub : ∀ {chunks : List Chunk} {l : List JVal} {xi : Nat} {j : Ctx} {b : Bool}
        {j2 : Ctx} (j4 : Ctx),
        run n (.submatch chunks l xi j) = some (b, j2)
          → ∃ j3, run n (.submatch chunks l xi j4) = some (b, j3) :=
      fun j4 h => ih h j4
    have ihg : ∀ {cp : Pattern} {rest : List Chunk} {l : List JVal} {xi r : Nat} {j : Ctx}
        {b : Bool} {j2 : Ctx} (j4 : Ctx),
        run n (.greedyLoop cp rest l xi r j) = some (b, j2)
          → ∃ j3, run n (.greedyLoop cp rest l xi r j4) = some (b, j3) :=
      fun j4 h => ih h j4
    have ihl : ∀ {cp : Pattern} {rest : List Chunk} {l : List JVal} {xi r rmax : Nat} {j : Ctx}
        {b : Bool} {j2 : Ctx} (j4 : Ctx),
        run n (.lazyLoop cp rest l xi r rmax j) = some (b, j2)
          → ∃ j3, run n (.lazyLoop cp rest l xi r rmax j4) = some (b, j3) :=
      fun j4 h => ih h j4
    clear ih
    cases c with
    | pat p x j =>
      simp only [setCtx]
      cases p with
      | any => cases h; exact ⟨j', rfl⟩
      | is v => cases h; exact ⟨j', rfl⟩
      | number => cases h; exact ⟨j', rfl⟩
      | string => cases h; exact ⟨j', rfl⟩
      | boolean => cases h; exact ⟨j', rfl⟩
      | or ps => exact ihor j' h
      | name s p =>
        rw [runEq_name] at h
        cases hr : run n (.pat p x j) with
        | none => rw [hr] at h; exact Option.noConfusion h
        | some br =>
          obtain ⟨b1, j1⟩ := br
          rw [hr] at h
          obtain ⟨j1', hr'⟩ := ihp j' hr
          cases b1
          · cases h
            exact ⟨j1', by rw [runEq_name, hr']⟩
          · cases h
            exact ⟨setKey j1' s x, by rw [runEq_name, hr']⟩
      | rep mode p mn mx =>
        cases x with
        | arr l =>
          rw [runEq_rep_arr] at h
          split_ifs at h with hmin hmax
          · cases h
            exact ⟨j', by rw [runEq_rep_arr, if_pos hmin]⟩
          · cases h
            exact ⟨j', by rw [runEq_rep_arr, if_neg hmin, if_pos hmax]⟩
          · obtain ⟨j3, hh⟩ := ihrep j' h
            exact ⟨j3, by rw [runEq_rep_arr, if_neg hmin, if_neg hmax]; exact hh⟩
        | num k => cases h; exact ⟨j', rfl⟩
        | str s => cases h; exact ⟨j', rfl⟩
        | bool bb => cases h; exact ⟨j', rfl⟩
      | lst ps =>
        cases x with
        | arr l => exact ihsub j' h
        | num k => cases h; exact ⟨j', rfl⟩
        | str s => cases h; exact ⟨j', rfl⟩
        | bool bb => cases h; exact ⟨j', rfl⟩
    | orLoop ps x j =>
      simp only [setCtx]
      cases ps with
      | nil => cases h; exact ⟨j', rfl⟩
      | cons p ps =>
        rw [runEq_orLoop_cons] at h
        cases hr : run n (.pat p x j) with
        | none => rw [hr] at h; exact Option.noConfusion h
        | some br =>
          obtain ⟨b1, j1⟩ := br
          rw [hr] at h
          obtain ⟨j1', hr'⟩ := ihp j' hr
          cases b1
          · obtain ⟨j3, hh⟩ := ihor j1' h
            exact ⟨j3, by rw [runEq_orLoop_cons, hr']; exact hh⟩
          · cases h
            exact ⟨j1', by rw [runEq_orLoop_cons, hr']⟩
    | repLoop p es j =>
      simp only [setCtx]
      cases es with
      | nil => cases h; exact ⟨j', rfl⟩
      | cons e es =>
        rw [runEq_repLoop_cons] at h
        cases hr : run n (.pat p e j) with
        | none => rw [hr] at h; exact Option.noConfusion h
        | some br =>
          obtain ⟨b1, j1⟩ := br
          rw [hr] at h
          obtain ⟨j1', hr'⟩ := ihp j' hr
          cases b1
          · cases h
            exact ⟨j1', by rw [runEq_repLoop_cons, hr']⟩
          · obtain ⟨j3, hh⟩ := ihrep j1' h
            exact ⟨j3, by rw [runEq_repLoop_cons, hr']; exact hh⟩
    | fixLoop ps es j =>
      simp only [setCtx]
      cases ps with
      | nil => cases h; exact ⟨j', rfl⟩
      | cons p ps =>
        cases es with
        | nil => cases h; exact ⟨j', rfl⟩
        | cons e es =>
          rw [runEq_fixLoop_cons] at h
          cases hr : run n (.pat p e j) with
          | none => rw [hr] at h; exact Option.noConfusion h
          | some br =>
            obtain ⟨b1, j1⟩ := br
            rw [hr] at h
            obtain ⟨j1', hr'⟩ := ihp j' hr
            cases b1
            · cases h
              exact ⟨j1', by rw [runEq_fixLoop_cons, hr']⟩
            · obtain ⟨j3, hh⟩ := ihfix j1' h
              exact ⟨j3, by rw [runEq_fixLoop_cons, hr']; exact hh⟩
    | submatch chunks l xi j =>
      simp only [setCtx]
      cases chunks with
      | nil => cases h; exact ⟨j', rfl⟩
      | cons chunk rest =>
        cases chunk with
        | fixed qs =>
          rw [runEq_submatch_fixed] at h
          split_ifs at h with hlen
          · cases h
            exact ⟨j', by rw [runEq_submatch_fixed, if_pos hlen]⟩
          · cases hr : run n (.fixLoop qs (l.drop xi) j) with
            | none => rw [hr] at h; exact Option.noConfusion h
            | some br =>
              obtain ⟨b1, j1⟩ := br
              rw [hr] at h
              obtain ⟨j1', hr'⟩ := ihfix j' hr
              cases b1
              · cases h
                exact ⟨j1', by rw [runEq_submatch_fixed, if_neg hlen, hr']⟩
              · obtain ⟨j3, hh⟩ := ihsub j1' h
                exact ⟨j3, by rw [runEq_submatch_fixed, if_neg hlen, hr']; exact hh⟩
        | repc cp =>
          rw [runEq_submatch_repc] at h
          split_ifs at h with hg hlen hlz
          · cases h
            exact ⟨j', by rw [runEq_submatch_repc, if_pos hg, if_pos hlen]⟩
          · obtain ⟨j3, hh⟩ := ihg j' h
            exact ⟨j3, by rw [runEq_submatch_repc, if_pos hg, if_neg hlen]; exact hh⟩
          · obtain ⟨j3, hh⟩ := ihl j' h
            exact ⟨j3, by rw [runEq_submatch_repc, if_neg hg, if_pos hlz]; exact hh⟩
          · cases h
            exact ⟨j', by rw [runEq_submatch_repc, if_neg hg, if_neg hlz]⟩
    | greedyLoop cp rest l xi r j =>
      simp only [setCtx]
      rw [runEq_greedyLoop] at h
      cases hr : run n (.pat cp (.arr ((l.drop xi).take r)) j) with
      | none => rw [hr] at h; exact Option.noConfusion h
      | some br =>
        obtain ⟨b1, j1⟩ := br
        rw [hr] at h
        obtain ⟨j1', hr'⟩ := ihp j' hr
        cases b1
        · have h' : (if r = 0 then some (false, j1)
              else run n (.greedyLoop cp rest l xi (r - 1) j1)) = some (b, j2) := h
          by_cases hr0 : r = 0
          · rw [if_pos hr0] at h'
            cases h'
            refine ⟨j1', ?_⟩
            rw [runEq_greedyLoop, hr']
            show (if r = 0 then some (false, j1')
                else run n (.greedyLoop cp rest l xi (r - 1) j1')) = some (false, j1')
            rw [if_pos hr0]
          · rw [if_neg hr0] at h'
            obtain ⟨j3, hh⟩ := ihg j1' h'
            refine ⟨j3, ?_⟩
            rw [runEq_greedyLoop, hr']
            show (if r = 0 then some (false, j1')
                else run n (.greedyLoop cp rest l xi (r - 1) j1')) = some (b, j3)
            rw [if_neg hr0]
            exact hh
        · have h' : (match run n (.submatch rest l (xi + r) j1) with
              | none => none
              | some (true, j2) => some (true, j2)
              | some (false, j2) =>
                  if r = 0 then some (false, j2)
                  else run n (.greedyLoop cp rest l xi (r - 1) j2)) = some (b, j2) := h
          cases hr2 : run n (.submatch rest l (xi + r) j1) with
          | none => rw [hr2] at h'; exact Option.noConfusion h'
          | some br2 =>
            obtain ⟨b2, j2x⟩ := br2
            rw [hr2] at h'
            obtain ⟨j2', hr2'⟩ := ihsub j1' hr2
            cases b2
            · have h2 : (if r = 0 then some (false, j2x)
                  else run n (.greedyLoop cp rest l xi (r - 1) j2x)) = some (b, j2) := h'
              by_cases hr0 : r = 0
              · rw [if_pos hr0] at h2
                cases h2
                refine ⟨j2', ?_⟩
                rw [runEq_greedyLoop, hr']
                show (match run n (.submatch rest l (xi + r) j1') with
                    | none => none
                    | some (true, j2) => some (true, j2)
                    | some (false, j2) =>
                        if r = 0 then some (false, j2)
                        else run n (.greedyLoop cp rest l xi (r - 1) j2)) = some (false, j2')
                rw [hr2']
                show (if r = 0 then some (false, j2')
                    else run n (.greedyLoop cp rest l xi (r - 1) j2')) = some (false, j2')
                rw [if_pos hr0]
              · rw [if_neg hr0] at h2
                obtain ⟨j3, hh⟩ := ihg j2' h2
                refine ⟨j3, ?_⟩
                rw [runEq_greedyLoop, hr']
                show (match run n (.submatch rest l (xi + r) j1') with
                    | none => none
                    | some (true, j2) => some (true, j2)
                    | some (false, j2) =>
                        if r = 0 then some (false, j2)
                        else run n (.greedyLoop cp rest l xi (r - 1) j2)) = some (b, j3)
                rw [hr2']
                show (if r = 0 then some (false, j2')
                    else run n (.greedyLoop cp rest l xi (r - 1) j2')) = some (b, j3)
                rw [if_neg hr0]
                exact hh
            · cases h'
              refine ⟨j2', ?_⟩
              rw [runEq_greedyLoop, hr']
              show (match run n (.submatch rest l (xi + r) j1') with
                  | none => none
                  | some (true, j2) => some (true, j2)
                  | some (false, j2) =>
                      if r = 0 then some (false, j2)
                      else run n (.greedyLoop cp rest l xi (r - 1) j2)) = some (true, j2')
              rw [hr2']
    | lazyLoop cp rest l xi r rmax j =>
      simp only [setCtx]
      rw [runEq_lazyLoop] at h
      split_ifs at h with hrm
      · cases h
        exact ⟨j', by rw [runEq_lazyLoop, if_pos hrm]⟩
      · cases hr : run n (.pat cp (.arr ((l.drop xi).take r)) j) with
        | none => rw [hr] at h; exact Option.noConfusion h
        | some br =>
          obtain ⟨b1, j1⟩ := br
          rw [hr] at h
          obtain ⟨j1', hr'⟩ := ihp j' hr
          cases b1
          · obtain ⟨j3, hh⟩ := ihl j1' h
            refine ⟨j3, ?_⟩
            rw [runEq_lazyLoop, if_neg hrm, hr']
            exact hh
          · have h' : (match run n (.submatch rest l (xi + r) j1) with
                | none => none
                | some (true, j2) => some (true, j2)
                | some (false, j2) =>
                    run n (.lazyLoop cp rest l xi (r + 1) rmax j2)) = some (b, j2) := h
            cases hr2 : run n (.submatch rest l (xi + r) j1) with
            | none => rw [hr2] at h'; exact Option.noConfusion h'
            | some br2 =>
              obtain ⟨b2, j2x⟩ := br2
              rw [hr2] at h'
              obtain ⟨j2', hr2'⟩ := ihsub j1' hr2
              cases b2
              · obtain ⟨j3, hh⟩ := ihl j2' h'
                refine ⟨j3, ?_⟩
                rw [runEq_lazyLoop, if_neg hrm, hr']
                show (match run n (.submatch rest l (xi + r) j1') with
                    | none => none
                    | some (true, j2) => some (true, j2)
                    | some (false, j2) =>
                        run n (.lazyLoop cp rest l xi (r + 1) rmax j2)) = some (b, j3)
                rw [hr2']
                exact hh
              · cases h'
                refine ⟨j2', ?_⟩
                rw [runEq_lazyLoop, if_neg hrm, hr']
                show (match run n (.submatch rest l (xi + r) j1') with
                    | none => none
                    | some (true, j2) => some (true, j2)
                    | some (false, j2) =>
                        run n (.lazyLoop cp rest l xi (r + 1) rmax j2)) = some (true, j2')
                rw [hr2']

/-! ## Success predicates -/

/-- A call can deliver success (with some fuel). -/
def CSucc (c : Call) : Prop :=
  ∃ n res, run n c = some res ∧ res.1 = true

/-- The matcher `p` accepts the candidate `x` (invoked on a fresh context,
as `match(p)(x)` does). -/
def Matches (p : Pattern) (x : JVal) : Prop :=
  CSucc (.pat p x [])

/-- The backtracking search over the given remaining chunks succeeds from
array cursor `xi`. -/
def SubSucc (chunks : List Chunk) (l : List JVal) (xi : Nat) : Prop :=
  CSucc (.submatch chunks l xi [])

/-- The binding context a call was issued with. -/
def ctxOf : Call → Ctx
  | .pat _ _ j => j
  | .orLoop _ _ j => j
  | .repLoop _ _ j => j
  | .fixLoop _ _ j => j
  | .submatch _ _ _ j => j
  | .greedyLoop _ _ _ _ _ j => j
  | .lazyLoop _ _ _ _ _ _ j => j

theorem setCtx_setCtx (c : Call) (j' j'' : Ctx) :
    setCtx (setCtx c j') j'' = setCtx c j'' := by
  cases c <;> rfl

theorem setCtx_ctxOf (c : Call) : setCtx c (ctxOf c) = c := by
  cases c <;> rfl

/-- The delivered flag of any terminating call decides `CSucc`, whatever the
fuel and whatever the incoming context. -/
theorem run_flag {n : Nat} {c : Call} {b : Bool} {j2 : Ctx}
    (h : run n c = some (b, j2)) (j' : Ctx) : b = true ↔ CSucc (setCtx c j') := by
  constructor
  · intro hb
    obtain ⟨j3, h3⟩ := run_ctx h j'
    exact ⟨n, (b, j3), h3, hb⟩
  · rintro ⟨m, ⟨b2, j4⟩, hm, hb2⟩
    obtain ⟨j5, h5⟩ := run_ctx hm (ctxOf c)
    rw [setCtx_setCtx, setCtx_ctxOf] at h5
    have h6 := run_mono_le (Nat.le_max_left n m) h
    have h7 := run_mono_le (Nat.le_max_right n m) h5
    rw [h6] at h7
    cases h7
    exact hb2

theorem patFlag {n : Nat} {p : Pattern} {x : JVal} {j : Ctx} {b : Bool} {j2 : Ctx}
    (h : run n (.pat p x j) = some (b, j2)) : b = true ↔ Matches p x :=
  run_flag h []

theorem subFlag {n : Nat} {chunks : List Chunk} {l : List JVal} {xi : Nat} {j : Ctx}
    {b : Bool} {j2 : Ctx}
    (h : run n (.submatch chunks l xi j) = some (b, j2)) :
    b = true ↔ SubSucc chunks l xi :=
  run_flag h []

/-! ## The repeat matcher -/

/-- The element loop of `repeat` succeeds exactly when every element
individually matches the sub-pattern. -/
theorem repLoop_flag : ∀ {es : List JVal} {n : Nat} {p : Pattern} {j : Ctx}
    {b : Bool} {j2 : Ctx},
    run n (.repLoop p es j) = some (b, j2) → (b = true ↔ ∀ e ∈ es, Matches p e) := by
  intro es
  induction es with
  | nil =>
    intro n p j b j2 h
    cases n with
    | zero => exact absurd h (by simp [run])
    | succ n => cases h; simp
  | cons e es ih =>
    intro n p j b j2 h
    cases n with
    | zero => exact absurd h (by simp [run])
    | succ n =>
      rw [runEq_repLoop_cons] at h
      cases hr : run n (.pat p e j) with
      | none => rw [hr] at h; exact Option.noConfusion h
      | some br =>
        obtain ⟨b1, j1⟩ := br
        rw [hr] at h
        cases b1
        · cases h
          constructor
          · intro hcontr
            exact absurd hcontr (by simp)
          · intro hall
            exact absurd ((patFlag hr).mpr (hall e (by simp))) (by simp)
        · have hme : Matches p e := (patFlag hr).mp rfl
          rw [List.forall_mem_cons, ih h]
          exact ⟨fun hx => ⟨hme, hx⟩, fun hx => hx.2⟩

/-- If some element fails to match, the element loop never looks past it:
the elements after the first failing one are irrelevant to the result. -/
theorem repLoop_shortcircuit : ∀ {l1 : List JVal} {n : Nat} {p : Pattern}
    {e : JVal} {l2 l2' : List JVal} {j : Ctx},
    ¬ Matches p e →
    run n (.repLoop p (l1 ++ e :: l2) j) = run n (.repLoop p (l1 ++ e :: l2') j) := by
  intro l1
  induction l1 with
  | nil =>
    intro n p e l2 l2' j hne
    cases n with
    | zero => rfl
    | succ n =>
      rw [List.nil_append, List.nil_append, runEq_repLoop_cons, runEq_repLoop_cons]
      cases hr : run n (.pat p e j) with
      | none => rfl
      | some br =>
        obtain ⟨b1, j1⟩ := br
        cases b1
        · rfl
        · exact absurd ((patFlag hr).mp rfl) hne
  | cons a l1 ih =>
    intro n p e l2 l2' j hne
    cases n with
    | zero => rfl
    | succ n =>
      rw [List.cons_append, List.cons_append, runEq_repLoop_cons, runEq_repLoop_cons]
      cases hr : run n (.pat p a j) with
      | none => rfl
      | some br =>
        obtain ⟨b1, j1⟩ := br
        cases b1
        · rfl
        · exact ih hne

/-! ## Claim theorems about repeat and name -/

/-- C4: the repeat matcher accepts exactly the array candidates whose length
satisfies the given bounds and whose elements all individually match the
sub-pattern; every non-array candidate is rejected (with no mutation); and
the element check short-circuits at the first failing element — everything
after the first failing element is never examined, so replacing it (keeping
the length, hence the bounds checks) cannot change the outcome. -/
theorem repeat_contract {mode : RepMode} {p : Pattern} {mn mx : Option Nat} {x : JVal}
    {j : Ctx} {n : Nat} {res : Bool × Ctx}
    (h : run n (.pat (.rep mode p mn mx) x j) = some res) :
    (res.1 = true ↔ ∃ l, x = .arr l
        ∧ (∀ m, mn = some m → m ≤ l.length)
        ∧ (∀ m, mx = some m → l.length ≤ m)
        ∧ ∀ e ∈ l, Matches p e)
    ∧ ((∀ l : List JVal, x ≠ .arr l) → res = (false, j))
    ∧ (∀ (l1 : List JVal) (e : JVal) (l2 l2' : List JVal),
        x = .arr (l1 ++ e :: l2) → l2'.length = l2.length → ¬ Matches p e →
        run n (.pat (.rep mode p mn mx) (.arr (l1 ++ e :: l2')) j) = some res) := by
  cases n with
  | zero => exact absurd h (by simp [run])
  | succ n =>
    obtain ⟨b, j2⟩ := res
    refine ⟨?_, ?_, ?_⟩
    · cases x with
      | arr l =>
        rw [runEq_rep_arr] at h
        split_ifs at h with hmin hmax
        · cases h
          constructor
          · intro hc; exact absurd hc (by simp)
          · rintro ⟨l', hl', hminok, _, _⟩
            injection hl' with hll
            subst hll
            cases mn with
            | none => exact absurd hmin (by simp [minViolated])
            | some m =>
              have h1 : l.length < m := by simpa [minViolated] using hmin
              exact absurd (hminok m rfl) (by omega)
        · cases h
          constructor
          · intro hc; exact absurd hc (by simp)
          · rintro ⟨l', hl', _, hmaxok, _⟩
            injection hl' with hll
            subst hll
            cases mx with
            | none => exact absurd hmax (by simp [maxViolated])
            | some m =>
              have h1 : m < l.length := by simpa [maxViolated] using hmax
              exact absurd (hmaxok m rfl) (by omega)
        · constructor
          · intro hb
            refine ⟨l, rfl, ?_, ?_, (repLoop_flag h).mp hb⟩
            · intro m hm
              subst hm
              have h1 : ¬ l.length < m := by simpa [minViolated] using hmin
              omega
            · intro m hm
              subst hm
              have h1 : ¬ m < l.length := by simpa [maxViolated] using hmax
              omega
          · rintro ⟨l', hl', _, _, hall⟩
            injection hl' with hll
            subst hll
            exact (repLoop_flag h).mpr hall
      | num k =>
        cases h
        constructor
        · intro hc; exact absurd hc (by simp)
        · rintro ⟨l', hl', _⟩; exact JVal.noConfusion hl'
      | str s =>
        cases h
        constructor
        · intro hc; exact absurd hc (by simp)
        · rintro ⟨l', hl', _⟩; exact JVal.noConfusion hl'
      | bool bb =>
        cases h
        constructor
        · intro hc; exact absurd hc (by simp)
        · rintro ⟨l', hl', _⟩; exact JVal.noConfusion hl'
    · intro hnot
      cases x with
      | arr l => exact absurd rfl (hnot l)
      | num k => cases h; rfl
      | str s => cases h; rfl
      | bool bb => cases h; rfl
    · intro l1 e l2 l2' hx hlen hne
      subst hx
      rw [runEq_rep_arr] at h ⊢
      have hll : (l1 ++ e :: l2').length = (l1 ++ e :: l2).length := by
        simp [hlen]
      rw [hll]
      split_ifs at h ⊢ with hmin hmax
      · exact h
      · exact h
      · rw [← repLoop_shortcircuit hne]
        exact h

/-- C4 witness: `repeat(is(1), 1, 2)` applied to `[1]`. -/
theorem repeat_contract_witness :
    (((true, ([] : Ctx)) : Bool × Ctx).1 = true ↔ ∃ l, JVal.arr [.num 1] = .arr l
        ∧ (∀ m, (some 1 : Option Nat) = some m → m ≤ l.length)
        ∧ (∀ m, (some 2 : Option Nat) = some m → l.length ≤ m)
        ∧ ∀ e ∈ l, Matches (.is (.num 1)) e)
    ∧ ((∀ l : List JVal, JVal.arr [.num 1] ≠ .arr l)
        → ((true, ([] : Ctx)) : Bool × Ctx) = (false, []))
    ∧ (∀ (l1 : List JVal) (e : JVal) (l2 l2' : List JVal),
        JVal.arr [.num 1] = .arr (l1 ++ e :: l2) → l2'.length = l2.length →
        ¬ Matches (.is (.num 1)) e →
        run 10 (.pat (.rep .plain (.is (.num 1)) (some 1) (some 2))
          (.arr (l1 ++ e :: l2')) []) = some (true, [])) :=
  @repeat_contract .plain (.is (.num 1)) (some 1) (some 2) (.arr [.num 1]) [] 10 (true, []) rfl

/-- C5: `name(label, p)` matches exactly when `p` matches and fails exactly
when `p` fails, with the same control flow; the only difference is the
write of the matched value under `label` on success.  Moreover `name`
carries `p`'s `.type` tag, so the chunker classifies `name(label, r)` as a
repetition chunk exactly as it would classify `r` itself. -/
theorem name_transparent {s : String} {p : Pattern} {x : JVal} {j : Ctx} {n : Nat}
    {b : Bool} {j2 : Ctx} (h : run n (.pat p x j) = some (b, j2)) :
    run (n + 1) (.pat (.name s p) x j) = some (b, if b then setKey j2 s x else j2)
    ∧ ptype (.name s p) = ptype p
    ∧ isRepPat (.name s p) = isRepPat p := by
  refine ⟨?_, rfl, rfl⟩
  rw [runEq_name, h]
  cases b
  · rfl
  · rfl

/-- C5 witness: naming a greedy repetition over the candidate `[7]`. -/
theorem name_transparent_witness :
    run 11 (.pat (.name "A" (.rep .greedy .any none none)) (.arr [.num 7]) [])
        = some (true, if true then setKey [] "A" (.arr [.num 7]) else [])
    ∧ ptype (.name "A" (.rep .greedy .any none none)) = ptype (.rep .greedy .any none none)
    ∧ isRepPat (.name "A" (.rep .greedy .any none none))
        = isRepPat (.rep .greedy .any none none) :=
  name_transparent (n := 10) rfl

/-- C10: a repetition constructed with `min` given and `max` omitted raises
no error — the constructor returns a working matcher — and that matcher
enforces only the lower bound: it accepts every array whose elements all
match and whose length is at least `min`, with no upper limit (the
`x.length > undefined` check is vacuous). -/
theorem repeat_min_only {mode : RepMode} {p? : Option Raw} {m : Nat} :
    (∃ q : Pattern, repeatCons mode p? (some m) none = .pat (.rep mode q (some m) none))
    ∧ ∀ (q : Pattern) (l : List JVal) (j : Ctx) (n : Nat) (res : Bool × Ctx),
        run n (.pat (.rep mode q (some m) none) (.arr l) j) = some res →
        (res.1 = true ↔ m ≤ l.length ∧ ∀ e ∈ l, Matches q e) := by
  constructor
  · cases p? with
    | none => exact ⟨.any, rfl⟩
    | some r => exact ⟨compile r, rfl⟩
  · intro q l j n res h
    cases n with
    | zero => exact absurd h (by simp [run])
    | succ n =>
      obtain ⟨b, j2⟩ := res
      rw [runEq_rep_arr] at h
      split_ifs at h with hmin hmax
      · cases h
        constructor
        · intro hc; exact absurd hc (by simp)
        · rintro ⟨hle, _⟩
          have h1 : l.length < m := by simpa [minViolated] using hmin
          omega
      · exact absurd hmax (by simp [maxViolated])
      · have hle : m ≤ l.length := by
          have h1 : ¬ l.length < m := by simpa [minViolated] using hmin
          omega
        exact ⟨fun hx => ⟨hle, (repLoop_flag h).mp hx⟩,
               fun hx => (repLoop_flag h).mpr hx.2⟩

/-- C10 witness: `repeat(any, 1)` accepts the length-3 array `[7, 8, 9]`. -/
theorem repeat_min_only_witness :
    (∃ q : Pattern, repeatCons .plain none (some 1) none = .pat (.rep .plain q (some 1) none))
    ∧ (((true, ([] : Ctx)) : Bool × Ctx).1 = true
        ↔ 1 ≤ [JVal.num 7, .num 8, .num 9].length
          ∧ ∀ e ∈ [JVal.num 7, .num 8, .num 9], Matches .any e) :=
  ⟨(@repeat_min_only .plain none 1).1,
   (@repeat_min_only .plain none 1).2 .any
     [.num 7, .num 8, .num 9] [] 10 (true, []) rfl⟩

/-! ## The greedy chunk search -/

/-- The `fixlength` loop of the greedy branch always computes 0: its
condition tests `chunks[ci].type`, and `chunks[ci]` is the greedy chunk
being processed, so the test never passes. -/
theorem fixlengthCalc_greedy {cp : Pattern} (rest : List Chunk)
    (hg : ptype cp = .greedyT) : fixlengthCalc (.repc cp) rest = 0 := by
  unfold fixlengthCalc
  cases hrest : rest.head? with
  | none => rfl
  | some nxt => simp [chunkIsRep, isRepPat, hg]

/-- The descending greedy loop starting at `r` succeeds exactly when some
consumption length `rl ≤ r` both validates the candidate slice against the
repetition chunk and lets the remaining chunks succeed from the advanced
cursor. -/
theorem greedyLoop_flag : ∀ {n : Nat} {cp : Pattern} {rest : List Chunk} {l : List JVal}
    {xi r : Nat} {j : Ctx} {res : Bool × Ctx},
    run n (.greedyLoop cp rest l xi r j) = some res →
    (res.1 = true ↔ ∃ rl ≤ r,
      Matches cp (.arr ((l.drop xi).take rl)) ∧ SubSucc rest l (xi + rl)) := by
  intro n
  induction n with
  | zero => intro cp rest l xi r j res h; exact absurd h (by simp [run])
  | succ n ih =>
    intro cp rest l xi r j res h
    obtain ⟨b, jr⟩ := res
    rw [runEq_greedyLoop] at h
    cases hr : run n (.pat cp (.arr ((l.drop xi).take r)) j) with
    | none => rw [hr] at h; exact Option.noConfusion h
    | some br =>
      obtain ⟨b1, j1⟩ := br
      rw [hr] at h
      cases b1
      · have h' : (if r = 0 then some (false, j1)
            else run n (.greedyLoop cp rest l xi (r - 1) j1)) = some (b, jr) := h
        by_cases hr0 : r = 0
        · rw [if_pos hr0] at h'
          cases h'
          subst hr0
          constructor
          · intro hc; exact absurd hc (by simp)
          · rintro ⟨rl, hrl, hm, _⟩
            have hrl0 : rl = 0 := Nat.le_zero.mp hrl
            subst hrl0
            exact absurd ((patFlag hr).mpr hm) (by simp)
        · rw [if_neg hr0] at h'
          constructor
          · intro hb
            obtain ⟨rl, hrl, hm, hs⟩ := (ih h').mp hb
            exact ⟨rl, by omega, hm, hs⟩
          · rintro ⟨rl, hrl, hm, hs⟩
            apply (ih h').mpr
            rcases Nat.lt_or_ge rl r with hlt | hge
            · exact ⟨rl, by omega, hm, hs⟩
            · have heq : rl = r := by omega
              subst heq
              exact absurd ((patFlag hr).mpr hm) (by simp)
      · have h' : (match run n (.submatch rest l (xi + r) j1) with
            | none => none
            | some (true, j2) => some (true, j2)
            | some (false, j2) =>
                if r = 0 then some (false, j2)
                else run n (.greedyLoop cp rest l xi (r - 1) j2)) = some (b, jr) := h
        cases hr2 : run n (.submatch rest l (xi + r) j1) with
        | none => rw [hr2] at h'; exact Option.noConfusion h'
        | some br2 =>
          obtain ⟨b2, j2x⟩ := br2
          rw [hr2] at h'
          cases b2
          · have h2 : (if r = 0 then some (false, j2x)
                else run n (.greedyLoop cp rest l xi (r - 1) j2x)) = some (b, jr) := h'
            by_cases hr0 : r = 0
            · rw [if_pos hr0] at h2
              cases h2
              subst hr0
              constructor
              · intro hc; exact absurd hc (by simp)
              · rintro ⟨rl, hrl, _, hs⟩
                have hrl0 : rl = 0 := Nat.le_zero.mp hrl
                subst hrl0
                exact absurd ((subFlag hr2).mpr hs) (by simp)
            · rw [if_neg hr0] at h2
              constructor
              · intro hb
                obtain ⟨rl, hrl, hm, hs⟩ := (ih h2).mp hb
                exact ⟨rl, by omega, hm, hs⟩
              · rintro ⟨rl, hrl, hm, hs⟩
                apply (ih h2).mpr
                rcases Nat.lt_or_ge rl r with hlt | hge
                · exact ⟨rl, by omega, hm, hs⟩
                · have heq : rl = r := by omega
                  subst heq
                  exact absurd ((subFlag hr2).mpr hs) (by simp)
          · cases h'
            constructor
            · intro _
              exact ⟨r, Nat.le_refl r, (patFlag hr).mp rfl, (subFlag hr2).mp rfl⟩
            · intro _; rfl

/-- C2 counterexample: the claim as stated fails when the array cursor has
overrun the array (reachable through a lazy chunk consuming past the end).
For the compiled sequence `[greedy()]`, candidate `[]`, and cursor `xi = 1`:
the number of remaining elements is `R = 0`, and per the claim the matcher
should try `r = 0` — the empty slice validates against `greedy()` and the
remaining (empty) chunk list then succeeds, so the claim predicts success —
but the source computes the loop start `x.length - xi - fixlength = -1 < 0`,
runs zero iterations, and fails. -/
theorem greedy_chunk_search_cex :
    chunkify [.rep .greedy .any none none] = [.repc (.rep .greedy .any none none)]
    ∧ run 20 (.submatch [.repc (.rep .greedy .any none none)] [] 1 []) = some (false, [])
    ∧ (0 : Nat) ≤ ([] : List JVal).length - 1
    ∧ Matches (.rep .greedy .any none none) (.arr ((([] : List JVal).drop 1).take 0))
    ∧ SubSucc [] ([] : List JVal) (1 + 0) :=
  ⟨rfl, rfl, Nat.zero_le _, ⟨3, (true, []), rfl, rfl⟩, ⟨1, (true, []), rfl, rfl⟩⟩

/-- C2 (amended): for a greedy repetition chunk of a compiled sequence,
provided the cursor has not overrun the array (`xi ≤ x.length`), the
source's fixlength subtraction is 0 — so the descending search really
starts at `R = x.length - xi` — and the search succeeds exactly when some
consumption length `r ∈ [0, R]` validates the slice `[xi, xi+r)` against
the repetition chunk (element-predicate and bounds) and the remaining
chunks then succeed from `(ci+1, xi+r)`; it fails iff no such `r` exists.
(When `xi > x.length` the loop start is negative and the matcher fails
without trying any `r` — see the counterexample.) -/
theorem greedy_chunk_search {ps : List Pattern} {pre rest : List Chunk} {cp : Pattern}
    {l : List JVal} {xi : Nat} {j : Ctx} {n : Nat} {res : Bool × Ctx}
    (_hseq : chunkify ps = pre ++ .repc cp :: rest)
    (hg : ptype cp = .greedyT)
    (hxi : xi ≤ l.length)
    (h : run n (.submatch (.repc cp :: rest) l xi j) = some res) :
    fixlengthCalc (.repc cp) rest = 0
    ∧ (res.1 = true ↔ ∃ r ≤ l.length - xi,
        Matches cp (.arr ((l.drop xi).take r)) ∧ SubSucc rest l (xi + r)) := by
  have hfix := fixlengthCalc_greedy rest hg
  refine ⟨hfix, ?_⟩
  cases n with
  | zero => exact absurd h (by simp [run])
  | succ n =>
    rw [runEq_submatch_repc, if_pos hg, hfix] at h
    rw [if_neg (by omega : ¬ l.length < xi + 0)] at h
    have h' : run n (.greedyLoop cp rest l xi (l.length - xi) j) = some res := by
      simpa using h
    exact greedyLoop_flag h'

/-- C2 witness: the sequence `[greedy()]` over `[1]` at cursor 0. -/
theorem greedy_chunk_search_witness :
    fixlengthCalc (.repc (.rep .greedy .any none none)) [] = 0
    ∧ (((true, ([] : Ctx)) : Bool × Ctx).1 = true ↔ ∃ r ≤ [JVal.num 1].length - 0,
        Matches (.rep .greedy .any none none) (.arr (([JVal.num 1].drop 0).take r))
        ∧ SubSucc [] [JVal.num 1] (0 + r)) :=
  @greedy_chunk_search [.rep .greedy .any none none] [] [] (.rep .greedy .any none none)
    [JVal.num 1] 0 [] 20 (true, []) rfl rfl (Nat.zero_le _) rfl

/-! ## Termination: size measures -/

mutual

/-- Size of a pattern, weighted so that every recursive step of the matcher
strictly descends (see `muA`). -/
def psize : Pattern → Nat
  | .any => 1
  | .is _ => 1
  | .number => 1
  | .string => 1
  | .boolean => 1
  | .or ps => 2 + psizeL ps
  | .lst ps => 2 + 3 * psizeL ps
  | .name _ p => 1 + psize p
  | .rep _ p _ _ => 2 + psize p

/-- Size of a pattern list (1 plus the sum of element sizes). -/
def psizeL : List Pattern → Nat
  | [] => 1
  | p :: ps => psize p + psizeL ps

end

theorem psize_pos : ∀ p : Pattern, 1 ≤ psize p := by
  intro p
  cases p <;> simp [psize] <;> omega

theorem psizeL_pos : ∀ ps : List Pattern, 1 ≤ psizeL ps := by
  intro ps
  cases ps with
  | nil => simp [psizeL]
  | cons p ps =>
    have := psize_pos p
    simp [psizeL]
    omega

theorem psizeL_eq_sum : ∀ ps : List Pattern, psizeL ps = (ps.map psize).sum + 1 := by
  intro ps
  induction ps with
  | nil => simp [psizeL]
  | cons p ps ih => simp [psizeL, ih]; omega

theorem psizeL_reverse (ps : List Pattern) : psizeL ps.reverse = psizeL ps := by
  simp [psizeL_eq_sum, List.sum_reverse]

/-- Size of a chunk. -/
def csize : Chunk → Nat
  | .fixed qs => 1 + psizeL qs
  | .repc p => 1 + psize p

/-- Size of a chunk list. -/
def csizeL : List Chunk → Nat
  | [] => 0
  | c :: cs => csize c + csizeL cs

theorem csizeL_append : ∀ xs ys : List Chunk, csizeL (xs ++ ys) = csizeL xs + csizeL ys := by
  intro xs ys
  induction xs with
  | nil => simp [csizeL]
  | cons c cs ih => simp [csizeL, ih]; omega

theorem chunkifyGo_size : ∀ (ps fx : List Pattern),
    csizeL (chunkifyGo ps fx) + 3
      ≤ 3 * psizeL ps + (if fx.isEmpty then 0 else psizeL fx + 1) := by
  intro ps
  induction ps with
  | nil =>
    intro fx
    cases fx with
    | nil => simp [chunkifyGo, csizeL, psizeL]
    | cons a fx =>
      have h1 : psizeL ((a :: fx).reverse) = psizeL (a :: fx) := psizeL_reverse _
      simp only [chunkifyGo, List.isEmpty_cons, Bool.false_eq_true, if_false,
        csizeL, csize, h1, psizeL]
      have := psize_pos a
      have := psizeL_pos fx
      simp [psizeL]
      omega
  | cons e rest ih =>
    intro fx
    by_cases he : isRepPat e
    · have ihr := ih ([] : List Pattern)
      simp only [List.isEmpty_nil, if_true] at ihr
      cases fx with
      | nil =>
        simp only [chunkifyGo, he, if_true, List.isEmpty_nil, List.nil_append]
        have hp := psize_pos e
        simp only [csizeL, csize, psizeL]
        omega
      | cons a fx =>
        have h1 : psizeL ((a :: fx).reverse) = psizeL (a :: fx) := psizeL_reverse _
        simp only [chunkifyGo, he, if_true, List.isEmpty_cons, Bool.false_eq_true,
          if_false, csizeL_append, csizeL, csize, h1, psizeL]
        have hp := psize_pos e
        omega
    · have ihr := ih (e :: fx)
      simp only [List.isEmpty_cons, Bool.false_eq_true, if_false, psizeL] at ihr
      simp only [chunkifyGo, he, Bool.false_eq_true, if_false]
      have hp := psize_pos e
      cases fx with
      | nil =>
        simp only [List.isEmpty_nil, if_true, psizeL]
        have hx : psizeL ([] : List Pattern) = 1 := rfl
        rw [hx] at ihr
        omega
      | cons a fx =>
        simp only [List.isEmpty_cons, Bool.false_eq_true, if_false, psizeL] at ihr ⊢
        omega

theorem chunkify_size (ps : List Pattern) : csizeL (chunkify ps) + 3 ≤ 3 * psizeL ps := by
  have h := chunkifyGo_size ps []
  simpa [chunkify] using h

/-- Primary measure: total pattern content of a call, arranged so that every
recursive call of `run` either strictly decreases `muA` or keeps it while
strictly decreasing `muB`. -/
def muA : Call → Nat
  | .pat p _ _ => psize p
  | .orLoop ps _ _ => psizeL ps
  | .repLoop p _ _ => 1 + psize p
  | .fixLoop ps _ _ => psizeL ps
  | .submatch chunks _ _ _ => 1 + csizeL chunks
  | .greedyLoop cp rest _ _ _ _ => 1 + psize cp + csizeL rest
  | .lazyLoop cp rest _ _ _ _ _ => 1 + psize cp + csizeL rest

/-- Secondary measure: the loop counter of the element loop and of the
greedy/lazy `replength` loops. -/
def muB : Call → Nat
  | .repLoop _ es _ => es.length
  | .greedyLoop _ _ _ _ r _ => r
  | .lazyLoop _ _ _ _ r rmax _ => rmax + 1 - r
  | _ => 0

theorem muA_pos (c : Call) : 1 ≤ muA c := by
  cases c with
  | pat p x j => simpa [muA] using psize_pos p
  | orLoop ps x j => simpa [muA] using psizeL_pos ps
  | repLoop p es j => simp only [muA]; omega
  | fixLoop ps es j => simpa [muA] using psizeL_pos ps
  | submatch chunks l xi j => simp only [muA]; omega
  | greedyLoop cp rest l xi r j => simp only [muA]; omega
  | lazyLoop cp rest l xi r rmax j => simp only [muA]; omega

/-- One step of the termination argument: a call delivers a result provided
every call that is smaller in the lexicographic measure `(muA, muB)` does. -/
theorem run_defined_step (c : Call)
    (ihA : ∀ c' : Call, muA c' < muA c → ∃ n res, run n c' = some res)
    (ihB : ∀ c' : Call, muA c' ≤ muA c → muB c' < muB c → ∃ n res, run n c' = some res) :
    ∃ n res, run n c = some res := by
  cases c with
  | pat p x j =>
    cases p with
    | any => exact ⟨1, (true, j), rfl⟩
    | is v => exact ⟨1, (jsEq x v, j), rfl⟩
    | number => exact ⟨1, _, rfl⟩
    | string => exact ⟨1, _, rfl⟩
    | boolean => exact ⟨1, _, rfl⟩
    | or ps =>
      obtain ⟨n, res, hn⟩ := ihA (.orLoop ps x j) (by simp only [muA, psize]; omega)
      exact ⟨n + 1, res, by rw [runEq_or]; exact hn⟩
    | name s p =>
      obtain ⟨n, ⟨b, j1⟩, hn⟩ := ihA (.pat p x j) (by simp only [muA, psize]; omega)
      cases b
      · exact ⟨n + 1, (false, j1), by rw [runEq_name, hn]⟩
      · exact ⟨n + 1, (true, setKey j1 s x), by rw [runEq_name, hn]⟩
    | rep mode p mn mx =>
      cases x with
      | arr l =>
        by_cases hmin : minViolated mn l.length
        · exact ⟨1, (false, j), by rw [runEq_rep_arr, if_pos hmin]⟩
        · by_cases hmax : maxViolated mx l.length
          · exact ⟨1, (false, j), by rw [runEq_rep_arr, if_neg hmin, if_pos hmax]⟩
          · obtain ⟨n, res, hn⟩ := ihA (.repLoop p l j) (by simp only [muA, psize]; omega)
            exact ⟨n + 1, res, by rw [runEq_rep_arr, if_neg hmin, if_neg hmax]; exact hn⟩
      | num k => exact ⟨1, (false, j), rfl⟩
      | str s => exact ⟨1, (false, j), rfl⟩
      | bool bb => exact ⟨1, (false, j), rfl⟩
    | lst ps =>
      cases x with
      | arr l =>
        have hlt : muA (.submatch (chunkify ps) l 0 j) < muA (.pat (.lst ps) (.arr l) j) := by
          have := chunkify_size ps
          simp only [muA, psize]
          omega
        obtain ⟨n, res, hn⟩ := ihA _ hlt
        exact ⟨n + 1, res, by rw [runEq_lst_arr]; exact hn⟩
      | num k => exact ⟨1, (false, j), rfl⟩
      | str s => exact ⟨1, (false, j), rfl⟩
      | bool bb => exact ⟨1, (false, j), rfl⟩
  | orLoop ps x j =>
    cases ps with
    | nil => exact ⟨1, (false, j), rfl⟩
    | cons p ps =>
      have hlt1 : muA (.pat p x j) < muA (.orLoop (p :: ps) x j) := by
        have := psizeL_pos ps
        simp only [muA, psizeL]
        omega
      obtain ⟨n1, ⟨b1, j1⟩, h1⟩ := ihA _ hlt1
      cases b1
      · have hlt2 : muA (.orLoop ps x j1) < muA (.orLoop (p :: ps) x j) := by
          have := psize_pos p
          simp only [muA, psizeL]
          omega
        obtain ⟨n2, res, h2⟩ := ihA _ hlt2
        refine ⟨max n1 n2 + 1, res, ?_⟩
        rw [runEq_orLoop_cons, run_mono_le (Nat.le_max_left n1 n2) h1]
        exact run_mono_le (Nat.le_max_right n1 n2) h2
      · exact ⟨n1 + 1, (true, j1), by rw [runEq_orLoop_cons, h1]⟩
  | repLoop p es j =>
    cases es with
    | nil => exact ⟨1, (true, j), rfl⟩
    | cons e es =>
      have hlt1 : muA (.pat p e j) < muA (.repLoop p (e :: es) j) := by
        simp only [muA]; omega
      obtain ⟨n1, ⟨b1, j1⟩, h1⟩ := ihA _ hlt1
      cases b1
      · exact ⟨n1 + 1, (false, j1), by rw [runEq_repLoop_cons, h1]⟩
      · obtain ⟨n2, res, h2⟩ := ihB (.repLoop p es j1) (by simp only [muA]; omega)
          (by simp only [muB, List.length_cons]; omega)
        refine ⟨max n1 n2 + 1, res, ?_⟩
        rw [runEq_repLoop_cons, run_mono_le (Nat.le_max_left n1 n2) h1]
        exact run_mono_le (Nat.le_max_right n1 n2) h2
  | fixLoop ps es j =>
    cases ps with
    | nil => exact ⟨1, (true, j), rfl⟩
    | cons p ps =>
      cases es with
      | nil => exact ⟨1, (false, j), rfl⟩
      | cons e es =>
        have hlt1 : muA (.pat p e j) < muA (.fixLoop (p :: ps) (e :: es) j) := by
          have := psizeL_pos ps
          simp only [muA, psizeL]
          omega
        obtain ⟨n1, ⟨b1, j1⟩, h1⟩ := ihA _ hlt1
        cases b1
        · exact ⟨n1 + 1, (false, j1), by rw [runEq_fixLoop_cons, h1]⟩
        · have hlt2 : muA (.fixLoop ps es j1) < muA (.fixLoop (p :: ps) (e :: es) j) := by
            have := psize_pos p
            simp only [muA, psizeL]
            omega
          obtain ⟨n2, res, h2⟩ := ihA _ hlt2
          refine ⟨max n1 n2 + 1, res, ?_⟩
          rw [runEq_fixLoop_cons, run_mono_le (Nat.le_max_left n1 n2) h1]
          exact run_mono_le (Nat.le_max_right n1 n2) h2
  | submatch chunks l xi j =>
    cases chunks with
    | nil => exact ⟨1, _, rfl⟩
    | cons chunk rest =>
      cases chunk with
      | fixed qs =>
        by_cases hlen : l.length < xi + qs.length
        · exact ⟨1, (false, j), by rw [runEq_submatch_fixed, if_pos hlen]⟩
        · have hlt1 : muA (.fixLoop qs (l.drop xi) j)
              < muA (.submatch (.fixed qs :: rest) l xi j) := by
            simp only [muA, csizeL, csize]; omega
          obtain ⟨n1, ⟨b1, j1⟩, h1⟩ := ihA _ hlt1
          cases b1
          · exact ⟨n1 + 1, (false, j1), by rw [runEq_submatch_fixed, if_neg hlen, h1]⟩
          · have hlt2 : muA (.submatch rest l (xi + qs.length) j1)
                < muA (.submatch (.fixed qs :: rest) l xi j) := by
              have := psizeL_pos qs
              simp only [muA, csizeL, csize]; omega
            obtain ⟨n2, res, h2⟩ := ihA _ hlt2
            refine ⟨max n1 n2 + 1, res, ?_⟩
            rw [runEq_submatch_fixed, if_neg hlen, run_mono_le (Nat.le_max_left n1 n2) h1]
            exact run_mono_le (Nat.le_max_right n1 n2) h2
      | repc cp =>
        by_cases hg : ptype cp = .greedyT
        · by_cases hlen : l.length < xi + fixlengthCalc (.repc cp) rest
          · exact ⟨1, (false, j), by rw [runEq_submatch_repc, if_pos hg, if_pos hlen]⟩
          · have hlt : muA (.greedyLoop cp rest l xi
                  (l.length - xi - fixlengthCalc (.repc cp) rest) j)
                < muA (.submatch (.repc cp :: rest) l xi j) := by
              simp only [muA, csizeL, csize]; omega
            obtain ⟨n, res, hn⟩ := ihA _ hlt
            exact ⟨n + 1, res, by rw [runEq_submatch_repc, if_pos hg, if_neg hlen]; exact hn⟩
        · by_cases hlz : ptype cp = .lazyT
          · have hlt : muA (.lazyLoop cp rest l xi 0 l.length j)
                < muA (.submatch (.repc cp :: rest) l xi j) := by
              simp only [muA, csizeL, csize]; omega
            obtain ⟨n, res, hn⟩ := ihA _ hlt
            exact ⟨n + 1, res, by rw [runEq_submatch_repc, if_neg hg, if_pos hlz]; exact hn⟩
          · exact ⟨1, (false, j), by rw [runEq_submatch_repc, if_neg hg, if_neg hlz]⟩
  | greedyLoop cp rest l xi r j =>
    have hltp : muA (.pat cp (.arr ((l.drop xi).take r)) j)
        < muA (.greedyLoop cp rest l xi r j) := by
      simp only [muA]; omega
    obtain ⟨n1, ⟨b1, j1⟩, h1⟩ := ihA _ hltp
    cases b1
    · by_cases hr0 : r = 0
      · refine ⟨n1 + 1, (false, j1), ?_⟩
        rw [runEq_greedyLoop, h1]
        show (if r = 0 then some (false, j1)
            else run n1 (.greedyLoop cp rest l xi (r - 1) j1)) = some (false, j1)
        rw [if_pos hr0]
      · obtain ⟨n3, res, h3⟩ := ihB (.greedyLoop cp rest l xi (r - 1) j1)
          (by simp only [muA]; omega) (by simp only [muB]; omega)
        refine ⟨max n1 n3 + 1, res, ?_⟩
        rw [runEq_greedyLoop, run_mono_le (Nat.le_max_left n1 n3) h1]
        show (if r = 0 then some (false, j1)
            else run (max n1 n3) (.greedyLoop cp rest l xi (r - 1) j1)) = some res
        rw [if_neg hr0]
        exact run_mono_le (Nat.le_max_right n1 n3) h3
    · have hlts : muA (.submatch rest l (xi + r) j1)
          < muA (.greedyLoop cp rest l xi r j) := by
        have := psize_pos cp
        simp only [muA]; omega
      obtain ⟨n2, ⟨b2, j2⟩, h2⟩ := ihA _ hlts
      cases b2
      · by_cases hr0 : r = 0
        · refine ⟨max n1 n2 + 1, (false, j2), ?_⟩
          rw [runEq_greedyLoop, run_mono_le (Nat.le_max_left n1 n2) h1]
          show (match run (max n1 n2) (.submatch rest l (xi + r) j1) with
              | none => none
              | some (true, jx) => some (true, jx)
              | some (false, jx) =>
                  if r = 0 then some (false, jx)
                  else run (max n1 n2) (.greedyLoop cp rest l xi (r - 1) jx))
            = some (false, j2)
          rw [run_mono_le (Nat.le_max_right n1 n2) h2]
          show (if r = 0 then some (false, j2)
              else run (max n1 n2) (.greedyLoop cp rest l xi (r - 1) j2)) = some (false, j2)
          rw [if_pos hr0]
        · obtain ⟨n3, res, h3⟩ := ihB (.greedyLoop cp rest l xi (r - 1) j2)
            (by simp only [muA]; omega) (by simp only [muB]; omega)
          refine ⟨max n1 (max n2 n3) + 1, res, ?_⟩
          rw [runEq_greedyLoop, run_mono_le (Nat.le_max_left n1 (max n2 n3)) h1]
          show (match run (max n1 (max n2 n3)) (.submatch rest l (xi + r) j1) with
              | none => none
              | some (true, jx) => some (true, jx)
              | some (false, jx) =>
                  if r = 0 then some (false, jx)
                  else run (max n1 (max n2 n3)) (.greedyLoop cp rest l xi (r - 1) jx))
            = some res
          rw [run_mono_le
            (Nat.le_trans (Nat.le_max_left n2 n3) (Nat.le_max_right n1 (max n2 n3))) h2]
          show (if r = 0 then some (false, j2)
              else run (max n1 (max n2 n3)) (.greedyLoop cp rest l xi (r - 1) j2)) = some res
          rw [if_neg hr0]
          exact run_mono_le
            (Nat.le_trans (Nat.le_max_right n2 n3) (Nat.le_max_right n1 (max n2 n3))) h3
      · refine ⟨max n1 n2 + 1, (true, j2), ?_⟩
        rw [runEq_greedyLoop, run_mono_le (Nat.le_max_left n1 n2) h1]
        show (match run (max n1 n2) (.submatch rest l (xi + r) j1) with
            | none => none
            | some (true, jx) => some (true, jx)
            | some (false, jx) =>
                if r = 0 then some (false, jx)
                else run (max n1 n2) (.greedyLoop cp rest l xi (r - 1) jx))
          = some (true, j2)
        rw [run_mono_le (Nat.le_max_right n1 n2) h2]
  | lazyLoop cp rest l xi r rmax j =>
    by_cases hrm : rmax < r
    · exact ⟨1, (false, j), by rw [runEq_lazyLoop, if_pos hrm]⟩
    · have hltp : muA (.pat cp (.arr ((l.drop xi).take r)) j)
          < muA (.lazyLoop cp rest l xi r rmax j) := by
        simp only [muA]; omega
      obtain ⟨n1, ⟨b1, j1⟩, h1⟩ := ihA _ hltp
      cases b1
      · obtain ⟨n3, res, h3⟩ := ihB (.lazyLoop cp rest l xi (r + 1) rmax j1)
          (by simp only [muA]; omega) (by simp only [muB]; omega)
        refine ⟨max n1 n3 + 1, res, ?_⟩
        rw [runEq_lazyLoop, if_neg hrm, run_mono_le (Nat.le_max_left n1 n3) h1]
        exact run_mono_le (Nat.le_max_right n1 n3) h3
      · have hlts : muA (.submatch rest l (xi + r) j1)
            < muA (.lazyLoop cp rest l xi r rmax j) := by
          have := psize_pos cp
          simp only [muA]; omega
        obtain ⟨n2, ⟨b2, j2⟩, h2⟩ := ihA _ hlts
        cases b2
        · obtain ⟨n3, res, h3⟩ := ihB (.lazyLoop cp rest l xi (r + 1) rmax j2)
            (by simp only [muA]; omega) (by simp only [muB]; omega)
          refine ⟨max n1 (max n2 n3) + 1, res, ?_⟩
          rw [runEq_lazyLoop, if_neg hrm, run_mono_le (Nat.le_max_left n1 (max n2 n3)) h1]
          show (match run (max n1 (max n2 n3)) (.submatch rest l (xi + r) j1) with
              | none => none
              | some (true, jx) => some (true, jx)
              | some (false, jx) =>
                  run (max n1 (max n2 n3)) (.lazyLoop cp rest l xi (r + 1) rmax jx))
            = some res
          rw [run_mono_le
            (Nat.le_trans (Nat.le_max_left n2 n3) (Nat.le_max_right n1 (max n2 n3))) h2]
          exact run_mono_le
            (Nat.le_trans (Nat.le_max_right n2 n3) (Nat.le_max_right n1 (max n2 n3))) h3
        · refine ⟨max n1 n2 + 1, (true, j2), ?_⟩
          rw [runEq_lazyLoop, if_neg hrm, run_mono_le (Nat.le_max_left n1 n2) h1]
          show (match run (max n1 n2) (.submatch rest l (xi + r) j1) with
              | none => none
              | some (true, jx) => some (true, jx)
              | some (false, jx) =>
                  run (max n1 n2) (.lazyLoop cp rest l xi (r + 1) rmax jx))
            = some (true, j2)
          rw [run_mono_le (Nat.le_max_right n1 n2) h2]

theorem run_defined_aux : ∀ A : Nat, ∀ B : Nat, ∀ c : Call, muA c = A → muB c = B →
    ∃ n res, run n c = some res := by
  intro A
  induction A using Nat.strong_induction_on with
  | _ A ihA =>
    intro B
    induction B using Nat.strong_induction_on with
    | _ B ihB =>
      intro c hA hB
      apply run_defined_step c
      · intro c' hlt
        exact ihA (muA c') (by omega) (muB c') c' rfl rfl
      · intro c' hle hlt
        rcases Nat.lt_or_ge (muA c') (muA c) with h1 | h1
        · exact ihA (muA c') (by omega) (muB c') c' rfl rfl
        · have h2 : muA c' = A := by omega
          exact ihB (muB c') (by omega) c' h2 rfl

/-- Every call of the matcher delivers a result with enough fuel. -/
theorem run_defined (c : Call) : ∃ n res, run n c = some res :=
  run_defined_aux (muA c) (muB c) c rfl rfl

/-- C8: every match operation terminates — for every compiled pattern,
candidate and binding context there is a fuel bound under which the whole
backtracking search (over chunk index and array cursor, through nested
sequences and repeats) runs to completion and returns a result (a success
flag together with the binding context); by `run_mono_le` that result is
stable under any larger fuel. -/
theorem match_terminates (p : Pattern) (x : JVal) (j : Ctx) :
    ∃ n res, run n (.pat p x j) = some res :=
  run_defined (.pat p x j)

/-! ## The dispatch helper -/

theorem selectLoop_flatten {α : Type} (fuel : Nat) (x : JVal)
    (fb : Option (JVal → α)) :
    ∀ pairs : List (Pattern × (Ctx → α)),
      selectLoop fuel x (flattenPairs pairs) fb = specSelect fuel x pairs fb := by
  intro pairs
  induction pairs with
  | nil => rfl
  | cons pr rest ih =>
    obtain ⟨p, f⟩ := pr
    show selectLoop fuel x (.cpat p :: .cfun f :: flattenPairs rest) fb
        = specSelect fuel x ((p, f) :: rest) fb
    simp only [selectLoop, specSelect]
    cases hr : run fuel (.pat p x []) with
    | none => exact ih
    | some br =>
      obtain ⟨b, m⟩ := br
      cases b
      · exact ih
      · rfl

/-- C9: calling `select` with an odd-length clause list signals the
configuration error (`Error('number of clauses is not even')`), before any
pattern is tried — regardless of the candidate and of whether any pattern
would have matched; with a well-formed (alternating, hence even-length)
clause list it behaves exactly as the spec's dispatch: the handler of the
first matching pattern is invoked with the resulting binding context, and
the fallback only when no pair matches. -/
theorem select_dispatch {α : Type} (fuel : Nat) (x : JVal)
    (fb : Option (JVal → α)) :
    (∀ clauses : List (ClauseItem α), clauses.length % 2 = 1 →
        select fuel x clauses fb = .error "number of clauses is not even")
    ∧ ∀ pairs : List (Pattern × (Ctx → α)),
        select fuel x (flattenPairs pairs) fb = .ok (specSelect fuel x pairs fb) := by
  constructor
  · intro clauses hodd
    unfold select
    rw [if_pos (by omega)]
  · intro pairs
    have heven : ∀ qs : List (Pattern × (Ctx → α)), (flattenPairs qs).length % 2 = 0 := by
      intro qs
      induction qs with
      | nil => rfl
      | cons q rest ih =>
        obtain ⟨p, f⟩ := q
        show ((ClauseItem.cpat p :: .cfun f :: flattenPairs rest).length) % 2 = 0
        simp only [List.length_cons]
        omega
    unfold select
    rw [if_neg (by simp [heven pairs])]
    rw [selectLoop_flatten]

/-- C9 witness: an odd (single-entry) clause list errors; the two-pair list
`[is(1) ↦ "first", is(0) ↦ "second"]` dispatches per the spec. -/
theorem select_dispatch_witness :
    select 5 (.num 0) [ClauseItem.cpat .any] (none : Option (JVal → String))
      = .error "number of clauses is not even"
    ∧ select 5 (.num 0)
        (flattenPairs [((.is (.num 1) : Pattern), fun _ => "first"),
                       ((.is (.num 0) : Pattern), fun _ => "second")]) none
      = .ok (specSelect 5 (.num 0)
          [((.is (.num 1) : Pattern), fun _ => "first"),
           ((.is (.num 0) : Pattern), fun _ => "second")] none) :=
  ⟨(select_dispatch 5 (.num 0) none).1 [ClauseItem.cpat .any] rfl,
   (select_dispatch 5 (.num 0) none).2
     [(.is (.num 1), fun _ => "first"), (.is (.num 0), fun _ => "second")]⟩
